import Mathlib

/-!
Verification of the simple-cache repository (src/main.rs).

The source contains two data structures:
* `Cache<K, V>`: an unbounded wrapper around `HashMap<K, V>`.
* `LRUCache<K, V>`: a capacity-bounded cache with a `HashMap<K, V>` store
  and a `VecDeque<K>` recency sequence (front = most recently used).

Shallow embedding choices:
* `HashMap<K, V>` is modelled as an association list `List (K × V)` kept in a
  canonical form (inserting a key first removes any pair with that key, then
  conses the new pair at the front).  The observable HashMap operations used by
  the source — `insert`, `get`, `remove`, `contains_key`, `len` — are modelled
  by `hmInsert`, `hmGet`, `hmRemove`, `hmContains`, and `List.length`.
* `VecDeque<K>` is modelled as `List K` with front = head.  `push_front` is
  cons, `retain` is `List.filter`, and `pop_back` is `List.getLast?` together
  with `List.dropLast`.
* Rust `&mut self` methods become state-passing functions; `LRUCache::get`,
  which both returns a value and mutates the recency order, returns a pair.
* The `assert!` in `LRUCache::new` (a fatal precondition violation) is
  modelled by returning `Option`: `none` is the abort.
-/

set_option linter.unusedSectionVars false

variable {K V : Type} [DecidableEq K]

/-- Model of `HashMap::remove(&k)` on the association-list representation:
drop every pair whose key is `k`. -/
def hmRemove (k : K) (s : List (K × V)) : List (K × V) :=
  s.filter (fun p => decide (p.1 ≠ k))

/-- Model of `HashMap::insert(k, v)`: overwrite any existing entry for `k`.
Canonical form: the fresh pair goes to the front, the old one is dropped. -/
def hmInsert (k : K) (v : V) (s : List (K × V)) : List (K × V) :=
  (k, v) :: hmRemove k s

/-- Model of `HashMap::get(&k)`. -/
def hmGet (k : K) (s : List (K × V)) : Option V :=
  (s.find? (fun p => decide (p.1 = k))).map Prod.snd

/-- Model of `HashMap::contains_key(&k)`. -/
def hmContains (k : K) (s : List (K × V)) : Bool :=
  s.any (fun p => decide (p.1 = k))

/-- The key set of the store, as a list. -/
def keys (s : List (K × V)) : List K :=
  s.map Prod.fst

/-- The unbounded `Cache<K, V>` struct of the source: a bare `HashMap`. -/
structure Cache (K V : Type) where
  storage : List (K × V)
  deriving DecidableEq

/-- `Cache::new()`: create a new empty cache. -/
def Cache.new : Cache K V :=
  ⟨[]⟩

/-- `Cache::set(&mut self, key, value)`: insert a key value pair. -/
def Cache.set (c : Cache K V) (key : K) (value : V) : Cache K V :=
  ⟨hmInsert key value c.storage⟩

/-- `Cache::get(&self, key)`: retrieve a value by key, returning an option.
It takes the receiver immutably, so it is a pure function of the state. -/
def Cache.get (c : Cache K V) (key : K) : Option V :=
  hmGet key c.storage

/-- Run a sequence of `Cache::set` calls. -/
def Cache.runSets (c : Cache K V) (ops : List (K × V)) : Cache K V :=
  ops.foldl (fun c p => c.set p.1 p.2) c

/-- The `LRUCache<K, V>` struct of the source. -/
structure LRUCache (K V : Type) where
  capacity : Nat
  storage : List (K × V)
  usage_order : List K
  deriving DecidableEq

/-- `LRUCache::new(capacity)`: asserts `capacity > 0` (fatal otherwise,
modelled as `none`), then builds an empty cache. -/
def LRUCache.new (capacity : Nat) : Option (LRUCache K V) :=
  if capacity > 0 then some ⟨capacity, [], []⟩ else none

/-- `LRUCache::update_usage(&mut self, key)`: `retain` every element different
from `key`, then `push_front` a clone of `key`. -/
def LRUCache.update_usage (c : LRUCache K V) (key : K) : LRUCache K V :=
  { c with usage_order := key :: c.usage_order.filter (fun x => decide (x ≠ key)) }

/-- `LRUCache::set(&mut self, key, value)`: insert or update the value, move
the key to the front of the usage order, then if the storage exceeds capacity
pop the back of the usage order and remove that key from storage. -/
def LRUCache.set (c : LRUCache K V) (key : K) (value : V) : LRUCache K V :=
  let c1 : LRUCache K V := { c with storage := hmInsert key value c.storage }
  let c2 := c1.update_usage key
  if c2.storage.length > c2.capacity then
    match c2.usage_order.getLast? with
    | some lru => { c2 with storage := hmRemove lru c2.storage,
                            usage_order := c2.usage_order.dropLast }
    | none => c2
  else c2

/-- `LRUCache::get(&mut self, key)`: if the key is present, move it to the
front of the usage order and return the stored value; otherwise return `None`.
The mutated receiver is returned alongside the result. -/
def LRUCache.get (c : LRUCache K V) (key : K) : Option V × LRUCache K V :=
  if hmContains key c.storage then
    let c1 := c.update_usage key
    (hmGet key c1.storage, c1)
  else
    (none, c)

/-- One public operation on an `LRUCache`. -/
inductive Op (K V : Type) where
  | set (k : K) (v : V)
  | get (k : K)

/-- Apply one public operation to the cache state. -/
def applyOp (c : LRUCache K V) : Op K V → LRUCache K V
  | .set k v => c.set k v
  | .get k => (c.get k).2

/-- Run a sequence of public operations. -/
def runOps (c : LRUCache K V) (ops : List (Op K V)) : LRUCache K V :=
  ops.foldl applyOp c

/-- The state invariant of a reachable `LRUCache`: the store has no duplicate
keys, the usage order has no duplicates and carries exactly the key set of the
store, the store size is within capacity, and the capacity is positive. -/
def CacheInv (c : LRUCache K V) : Prop :=
  (keys c.storage).Nodup ∧
  c.usage_order.Nodup ∧
  (∀ x ∈ c.usage_order, x ∈ keys c.storage) ∧
  (∀ x ∈ keys c.storage, x ∈ c.usage_order) ∧
  c.storage.length ≤ c.capacity ∧
  0 < c.capacity

instance (c : LRUCache K V) : Decidable (CacheInv c) := by
  unfold CacheInv
  infer_instance

/-! ### Basic lemmas about the association-list HashMap model -/

theorem keys_hmRemove (k : K) (s : List (K × V)) :
    keys (hmRemove k s) = (keys s).filter (fun x => decide (x ≠ k)) := by
  induction s with
  | nil => rfl
  | cons p t ih =>
    simp only [hmRemove, keys] at ih ⊢
    simp only [List.map_cons, List.filter_cons]
    by_cases h : p.1 = k <;> simp_all

theorem keys_hmInsert (k : K) (v : V) (s : List (K × V)) :
    keys (hmInsert k v s) = k :: keys (hmRemove k s) :=
  rfl

theorem mem_keys_hmRemove {k x : K} {s : List (K × V)} :
    x ∈ keys (hmRemove k s) ↔ x ∈ keys s ∧ x ≠ k := by
  rw [keys_hmRemove]
  simp [List.mem_filter]

theorem mem_keys_hmInsert {k x : K} {v : V} {s : List (K × V)} :
    x ∈ keys (hmInsert k v s) ↔ x = k ∨ (x ∈ keys s ∧ x ≠ k) := by
  rw [keys_hmInsert]
  simp [mem_keys_hmRemove]

theorem hmContains_iff {k : K} {s : List (K × V)} :
    hmContains k s = true ↔ k ∈ keys s := by
  simp [hmContains, keys, List.any_eq_true, List.mem_map]

theorem hmRemove_eq_self_of_not_mem {k : K} {s : List (K × V)} (h : k ∉ keys s) :
    hmRemove k s = s := by
  apply List.filter_eq_self.mpr
  intro p hp
  simp only [decide_eq_true_eq]
  intro hpk
  apply h
  rw [← hpk]
  exact List.mem_map_of_mem Prod.fst hp

theorem nodup_keys_hmRemove {k : K} {s : List (K × V)} (h : (keys s).Nodup) :
    (keys (hmRemove k s)).Nodup := by
  rw [keys_hmRemove]
  exact h.filter _

theorem nodup_keys_hmInsert {k : K} {v : V} {s : List (K × V)} (h : (keys s).Nodup) :
    (keys (hmInsert k v s)).Nodup := by
  rw [keys_hmInsert]
  refine List.nodup_cons.mpr ⟨fun hmem => ?_, nodup_keys_hmRemove h⟩
  exact (mem_keys_hmRemove.mp hmem).2 rfl

theorem hmGet_cons_self {x : K} {p : K × V} {t : List (K × V)} (h : p.1 = x) :
    hmGet x (p :: t) = some p.2 := by
  unfold hmGet
  rw [List.find?_cons_of_pos]
  · rfl
  · simpa using h

theorem hmGet_cons_ne {x : K} {p : K × V} {t : List (K × V)} (h : ¬ p.1 = x) :
    hmGet x (p :: t) = hmGet x t := by
  unfold hmGet
  rw [List.find?_cons_of_neg]
  simpa using h

theorem hmGet_hmInsert_self (k : K) (v : V) (s : List (K × V)) :
    hmGet k (hmInsert k v s) = some v :=
  hmGet_cons_self rfl

theorem hmGet_hmRemove_ne {k x : K} (hne : x ≠ k) (s : List (K × V)) :
    hmGet x (hmRemove k s) = hmGet x s := by
  induction s with
  | nil => rfl
  | cons p t ih =>
    simp only [hmRemove, List.filter_cons] at ih ⊢
    by_cases h : p.1 = k
    · rw [if_neg (by simp [h]), hmGet_cons_ne (fun e => hne (by rw [← e, h]))]
      exact ih
    · rw [if_pos (by simp [h])]
      by_cases hx : p.1 = x
      · rw [hmGet_cons_self hx, hmGet_cons_self hx]
      · rw [hmGet_cons_ne hx, hmGet_cons_ne hx]
        exact ih

theorem hmGet_hmInsert_ne {k x : K} {v : V} (hne : x ≠ k) (s : List (K × V)) :
    hmGet x (hmInsert k v s) = hmGet x s := by
  unfold hmInsert
  rw [hmGet_cons_ne (fun e => hne e.symm)]
  exact hmGet_hmRemove_ne hne s

theorem hmGet_hmRemove_self (k : K) (s : List (K × V)) :
    hmGet k (hmRemove k s) = none := by
  have h : (s.filter (fun p => decide (p.1 ≠ k))).find? (fun p => decide (p.1 = k)) = none := by
    apply List.find?_eq_none.mpr
    intro p hp
    simpa using (List.mem_filter.mp hp).2
  unfold hmGet hmRemove
  rw [h]
  rfl

theorem hmGet_isSome_of_mem {k : K} {s : List (K × V)} (h : k ∈ keys s) :
    ∃ v, hmGet k s = some v := by
  induction s with
  | nil => cases h
  | cons p t ih =>
    by_cases hp : p.1 = k
    · exact ⟨p.2, hmGet_cons_self hp⟩
    · rw [hmGet_cons_ne hp]
      apply ih
      simp only [keys, List.map_cons, List.mem_cons] at h
      rcases h with h | h
      · exact absurd h.symm hp
      · exact h

theorem length_filter_ne_of_nodup {k : K} {l : List K} (hnd : l.Nodup) (h : k ∈ l) :
    (l.filter (fun x => decide (x ≠ k))).length + 1 = l.length := by
  induction l with
  | nil => cases h
  | cons a t ih =>
    rw [List.filter_cons]
    rcases List.nodup_cons.mp hnd with ⟨hat, hndt⟩
    rcases List.mem_cons.mp h with rfl | ht
    · rw [if_neg (by simp)]
      rw [List.filter_eq_self.mpr (fun x hx => by
        simp only [decide_eq_true_eq]
        rintro rfl
        exact hat hx)]
      simp
    · have hak : a ≠ k := fun e => hat (e ▸ ht)
      rw [if_pos (by simpa using hak)]
      have := ih hndt ht
      simp only [List.length_cons]
      omega

theorem filter_ne_eq_self_of_not_mem {k : K} {l : List K} (h : k ∉ l) :
    l.filter (fun x => decide (x ≠ k)) = l := by
  apply List.filter_eq_self.mpr
  intro a ha
  simp only [decide_eq_true_eq]
  rintro rfl
  exact h ha

theorem length_hmRemove_mem {k : K} {s : List (K × V)}
    (hnd : (keys s).Nodup) (h : k ∈ keys s) :
    (hmRemove k s).length + 1 = s.length := by
  have h1 : (hmRemove k s).length = (keys (hmRemove k s)).length := by
    simp [keys]
  rw [h1, keys_hmRemove, length_filter_ne_of_nodup hnd h]
  simp [keys]

theorem length_hmInsert_not_mem {k : K} {v : V} {s : List (K × V)} (h : k ∉ keys s) :
    (hmInsert k v s).length = s.length + 1 := by
  simp [hmInsert, hmRemove_eq_self_of_not_mem h]

theorem length_hmInsert_mem {k : K} {v : V} {s : List (K × V)}
    (hnd : (keys s).Nodup) (h : k ∈ keys s) :
    (hmInsert k v s).length = s.length := by
  simp only [hmInsert, List.length_cons]
  exact length_hmRemove_mem hnd h

/-! ### Unfolding lemmas for the LRUCache operations -/

theorem mem_promote {k x : K} {l : List K} :
    x ∈ k :: l.filter (fun y => decide (y ≠ k)) ↔ x = k ∨ (x ∈ l ∧ x ≠ k) := by
  simp [List.mem_cons, List.mem_filter]

theorem nodup_promote {k : K} {l : List K} (h : l.Nodup) :
    (k :: l.filter (fun y => decide (y ≠ k))).Nodup := by
  refine List.nodup_cons.mpr ⟨fun hmem => ?_, h.filter _⟩
  exact (by simpa using (List.mem_filter.mp hmem).2 : k ≠ k) rfl

theorem get_of_contains {c : LRUCache K V} {k : K} (h : hmContains k c.storage = true) :
    c.get k = (hmGet k c.storage,
      ⟨c.capacity, c.storage, k :: c.usage_order.filter (fun x => decide (x ≠ k))⟩) := by
  simp only [LRUCache.get, LRUCache.update_usage]
  rw [if_pos h]

theorem get_of_not_contains {c : LRUCache K V} {k : K} (h : ¬ hmContains k c.storage = true) :
    c.get k = (none, c) := by
  simp only [LRUCache.get]
  rw [if_neg h]

theorem set_eq_no_evict (c : LRUCache K V) (k : K) (v : V)
    (hle : (hmInsert k v c.storage).length ≤ c.capacity) :
    c.set k v = ⟨c.capacity, hmInsert k v c.storage,
      k :: c.usage_order.filter (fun x => decide (x ≠ k))⟩ := by
  simp only [LRUCache.set, LRUCache.update_usage]
  rw [if_neg (by omega)]

theorem set_eq_evict (c : LRUCache K V) (k : K) (v : V) {us : List K} {z : K}
    (hgt : (hmInsert k v c.storage).length > c.capacity)
    (hk : k ∉ c.usage_order)
    (hus : c.usage_order = us ++ [z]) :
    c.set k v = ⟨c.capacity, hmRemove z (hmInsert k v c.storage), k :: us⟩ := by
  have hfilter : c.usage_order.filter (fun x => decide (x ≠ k)) = us ++ [z] := by
    rw [filter_ne_eq_self_of_not_mem hk, hus]
  have hcons : k :: (us ++ [z]) = (k :: us) ++ [z] := by simp
  simp only [LRUCache.set, LRUCache.update_usage]
  rw [hfilter, if_pos hgt, hcons, List.getLast?_concat, List.dropLast_concat]

/-! ### Preservation of the state invariant -/

theorem cacheInv_set (c : LRUCache K V) (k : K) (v : V) (h : CacheInv c) :
    CacheInv (c.set k v) := by
  obtain ⟨hnds, hndu, hus, hsu, hlen, hpos⟩ := h
  by_cases hk : k ∈ keys c.storage
  · rw [set_eq_no_evict c k v (by rw [length_hmInsert_mem hnds hk]; exact hlen)]
    refine ⟨nodup_keys_hmInsert hnds, nodup_promote hndu, ?_, ?_, ?_, hpos⟩
    · intro x hx
      rcases mem_promote.mp hx with rfl | ⟨hxl, hxe⟩
      · exact mem_keys_hmInsert.mpr (Or.inl rfl)
      · exact mem_keys_hmInsert.mpr (Or.inr ⟨hus x hxl, hxe⟩)
    · intro x hx
      rcases mem_keys_hmInsert.mp hx with rfl | ⟨hxs, hxe⟩
      · exact mem_promote.mpr (Or.inl rfl)
      · exact mem_promote.mpr (Or.inr ⟨hsu x hxs, hxe⟩)
    · rw [length_hmInsert_mem hnds hk]
      exact hlen
  · by_cases hfull : c.storage.length < c.capacity
    · rw [set_eq_no_evict c k v (by rw [length_hmInsert_not_mem hk]; omega)]
      refine ⟨nodup_keys_hmInsert hnds, nodup_promote hndu, ?_, ?_, ?_, hpos⟩
      · intro x hx
        rcases mem_promote.mp hx with rfl | ⟨hxl, hxe⟩
        · exact mem_keys_hmInsert.mpr (Or.inl rfl)
        · exact mem_keys_hmInsert.mpr (Or.inr ⟨hus x hxl, hxe⟩)
      · intro x hx
        rcases mem_keys_hmInsert.mp hx with rfl | ⟨hxs, hxe⟩
        · exact mem_promote.mpr (Or.inl rfl)
        · exact mem_promote.mpr (Or.inr ⟨hsu x hxs, hxe⟩)
      · show (hmInsert k v c.storage).length ≤ c.capacity
        rw [length_hmInsert_not_mem hk]
        omega
    · have hfull2 : c.storage.length = c.capacity := le_antisymm hlen (not_lt.mp hfull)
      have hksu : k ∉ c.usage_order := fun hmem => hk (hus k hmem)
      have hune : c.usage_order ≠ [] := by
        cases hs : c.storage with
        | nil => rw [hs] at hfull2; simp at hfull2; omega
        | cons p t =>
          have : p.1 ∈ c.usage_order := hsu p.1 (by rw [hs]; exact List.mem_cons_self _ _)
          exact fun he => by rw [he] at this; cases this
      obtain ⟨us, z, husz⟩ : ∃ us z, c.usage_order = us ++ [z] := by
        rcases List.eq_nil_or_concat c.usage_order with he | ⟨us, z, he⟩
        · exact absurd he hune
        · exact ⟨us, z, by simpa [List.concat_eq_append] using he⟩
      have hgt : (hmInsert k v c.storage).length > c.capacity := by
        rw [length_hmInsert_not_mem hk]
        omega
      rw [set_eq_evict c k v hgt hksu husz]
      have hzu : z ∈ c.usage_order := by rw [husz]; simp
      have hzs : z ∈ keys c.storage := hus z hzu
      have hzk : z ≠ k := fun e => hk (e ▸ hzs)
      rw [husz] at hndu
      rcases List.nodup_append.mp hndu with ⟨hndus, _, hdisj⟩
      have hzus : z ∉ us := fun hmem => hdisj hmem (by simp)
      have hkus : k ∉ us := fun hmem =>
        hksu (by rw [husz]; exact List.mem_append_left _ hmem)
      refine ⟨nodup_keys_hmRemove (nodup_keys_hmInsert hnds),
        List.nodup_cons.mpr ⟨hkus, hndus⟩, ?_, ?_, ?_, hpos⟩
      · intro x hx
        rcases List.mem_cons.mp hx with rfl | hxus
        · exact mem_keys_hmRemove.mpr ⟨mem_keys_hmInsert.mpr (Or.inl rfl), Ne.symm hzk⟩
        · refine mem_keys_hmRemove.mpr ⟨mem_keys_hmInsert.mpr (Or.inr ⟨?_, ?_⟩), ?_⟩
          · exact hus x (by rw [husz]; exact List.mem_append_left _ hxus)
          · exact fun e => hkus (e ▸ hxus)
          · exact fun e => hzus (e ▸ hxus)
      · intro x hx
        obtain ⟨hxi, hxz⟩ := mem_keys_hmRemove.mp hx
        rcases mem_keys_hmInsert.mp hxi with rfl | ⟨hxs, hxk⟩
        · exact List.mem_cons_self _ _
        · have hxu : x ∈ us ++ [z] := husz ▸ hsu x hxs
          rcases List.mem_append.mp hxu with h1 | h1
          · exact List.mem_cons_of_mem _ h1
          · exact absurd (by simpa using h1) hxz
      · show (hmRemove z (hmInsert k v c.storage)).length ≤ c.capacity
        have hzi : z ∈ keys (hmInsert k v c.storage) :=
          mem_keys_hmInsert.mpr (Or.inr ⟨hzs, hzk⟩)
        have := length_hmRemove_mem (nodup_keys_hmInsert hnds) hzi
        rw [length_hmInsert_not_mem hk] at this
        omega

theorem cacheInv_get (c : LRUCache K V) (k : K) (h : CacheInv c) :
    CacheInv (c.get k).2 := by
  obtain ⟨hnds, hndu, hus, hsu, hlen, hpos⟩ := h
  by_cases hc : hmContains k c.storage = true
  · rw [get_of_contains hc]
    have hk : k ∈ keys c.storage := hmContains_iff.mp hc
    refine ⟨hnds, nodup_promote hndu, ?_, ?_, hlen, hpos⟩
    · intro x hx
      rcases mem_promote.mp hx with rfl | ⟨hxl, _⟩
      · exact hk
      · exact hus x hxl
    · intro x hx
      by_cases hxk : x = k
      · exact mem_promote.mpr (Or.inl hxk)
      · exact mem_promote.mpr (Or.inr ⟨hsu x hx, hxk⟩)
  · rw [get_of_not_contains hc]
    exact ⟨hnds, hndu, hus, hsu, hlen, hpos⟩

theorem cacheInv_applyOp (c : LRUCache K V) (op : Op K V) (h : CacheInv c) :
    CacheInv (applyOp c op) := by
  cases op with
  | set k v => exact cacheInv_set c k v h
  | get k => exact cacheInv_get c k h

theorem cacheInv_runOps (c : LRUCache K V) (ops : List (Op K V)) (h : CacheInv c) :
    CacheInv (runOps c ops) := by
  induction ops generalizing c with
  | nil => exact h
  | cons op t ih =>
    simp only [runOps, List.foldl_cons] at ih ⊢
    exact ih _ (cacheInv_applyOp c op h)

theorem capacity_set (c : LRUCache K V) (k : K) (v : V) :
    (c.set k v).capacity = c.capacity := by
  simp only [LRUCache.set, LRUCache.update_usage]
  split
  · split <;> rfl
  · rfl

theorem capacity_get (c : LRUCache K V) (k : K) :
    ((c.get k).2).capacity = c.capacity := by
  by_cases hc : hmContains k c.storage = true
  · rw [get_of_contains hc]
  · rw [get_of_not_contains hc]

theorem capacity_applyOp (c : LRUCache K V) (op : Op K V) :
    (applyOp c op).capacity = c.capacity := by
  cases op with
  | set k v => exact capacity_set c k v
  | get k => exact capacity_get c k

theorem capacity_runOps (c : LRUCache K V) (ops : List (Op K V)) :
    (runOps c ops).capacity = c.capacity := by
  induction ops generalizing c with
  | nil => rfl
  | cons op t ih =>
    simp only [runOps, List.foldl_cons] at ih ⊢
    rw [ih, capacity_applyOp]

theorem cacheInv_new {cap : Nat} {c : LRUCache K V} (h : LRUCache.new cap = some c) :
    CacheInv c := by
  unfold LRUCache.new at h
  by_cases hc : cap > 0
  · rw [if_pos hc] at h
    cases h
    exact ⟨List.nodup_nil, List.nodup_nil, by simp, by simp [keys], by simp, hc⟩
  · rw [if_neg hc] at h
    cases h

/-! ### Further helper lemmas -/

theorem hmGet_eq_none_of_not_mem {k : K} {s : List (K × V)} (h : k ∉ keys s) :
    hmGet k s = none := by
  rw [← hmRemove_eq_self_of_not_mem h]
  exact hmGet_hmRemove_self k s

theorem mem_keys_of_hmGet_eq_some {k : K} {s : List (K × V)} {v : V}
    (h : hmGet k s = some v) : k ∈ keys s := by
  by_contra hmem
  rw [hmGet_eq_none_of_not_mem hmem] at h
  cases h

theorem mem_keys_hmInsert_of_mem {x k : K} {v : V} {s : List (K × V)}
    (h : x ∈ keys s) : x ∈ keys (hmInsert k v s) := by
  by_cases hx : x = k
  · exact mem_keys_hmInsert.mpr (Or.inl hx)
  · exact mem_keys_hmInsert.mpr (Or.inr ⟨h, hx⟩)

/-- In a full cache that does not contain `k`, the usage order decomposes as a
nonempty sequence ending in the least recently used key `z`. -/
theorem evict_setup {c : LRUCache K V} {k : K} (h : CacheInv c)
    (hk : k ∉ keys c.storage) (hfull : c.storage.length = c.capacity) :
    ∃ us z, c.usage_order = us ++ [z] ∧ z ∈ keys c.storage ∧ z ≠ k ∧
      z ∉ us ∧ k ∉ c.usage_order := by
  obtain ⟨hnds, hndu, hus, hsu, hlen, hpos⟩ := h
  have hksu : k ∉ c.usage_order := fun hmem => hk (hus k hmem)
  have hune : c.usage_order ≠ [] := by
    cases hs : c.storage with
    | nil => rw [hs] at hfull; simp at hfull; omega
    | cons p t =>
      have : p.1 ∈ c.usage_order := hsu p.1 (by rw [hs]; exact List.mem_cons_self _ _)
      exact fun he => by rw [he] at this; cases this
  obtain ⟨us, z, husz⟩ : ∃ us z, c.usage_order = us ++ [z] := by
    rcases List.eq_nil_or_concat c.usage_order with he | ⟨us, z, he⟩
    · exact absurd he hune
    · exact ⟨us, z, by simpa [List.concat_eq_append] using he⟩
  have hzu : z ∈ c.usage_order := by rw [husz]; simp
  have hzs : z ∈ keys c.storage := hus z hzu
  have hzk : z ≠ k := fun e => hk (e ▸ hzs)
  rw [husz] at hndu
  rcases List.nodup_append.mp hndu with ⟨_, _, hdisj⟩
  exact ⟨us, z, husz, hzs, hzk, fun hmem => hdisj hmem (by simp), hksu⟩

/-- Under the invariant, `set` stores the value for the key and promotes the
key to the front of the usage order. -/
theorem set_get_value (c : LRUCache K V) (k : K) (v : V) (h : CacheInv c) :
    hmGet k (c.set k v).storage = some v ∧
    (c.set k v).usage_order.head? = some k := by
  obtain ⟨hnds, hndu, hus, hsu, hlen, hpos⟩ := h
  by_cases hk : k ∈ keys c.storage
  · rw [set_eq_no_evict c k v (by rw [length_hmInsert_mem hnds hk]; exact hlen)]
    exact ⟨hmGet_hmInsert_self k v c.storage, rfl⟩
  · by_cases hfull : c.storage.length < c.capacity
    · rw [set_eq_no_evict c k v (by rw [length_hmInsert_not_mem hk]; omega)]
      exact ⟨hmGet_hmInsert_self k v c.storage, rfl⟩
    · have hfull2 : c.storage.length = c.capacity := le_antisymm hlen (not_lt.mp hfull)
      obtain ⟨us, z, husz, hzs, hzk, hzus, hksu⟩ :=
        evict_setup ⟨hnds, hndu, hus, hsu, hlen, hpos⟩ hk hfull2
      have hgt : (hmInsert k v c.storage).length > c.capacity := by
        rw [length_hmInsert_not_mem hk]
        omega
      rw [set_eq_evict c k v hgt hksu husz]
      constructor
      · show hmGet k (hmRemove z (hmInsert k v c.storage)) = some v
        rw [hmGet_hmRemove_ne (Ne.symm hzk), hmGet_hmInsert_self]
      · rfl

/-! ### Claim theorems -/

/-- C1: under the reachable-state invariant, when a `set` of a fresh key hits
a full cache (the only way the store can come to exceed capacity), exactly one
entry is removed, namely the key at the back of the recency sequence: the
store size returns to capacity, the back key is gone, every other key keeps
its value, and the surviving key set is the old one minus the evicted key plus
the new one. -/
theorem claim1_eviction_is_lru (c : LRUCache K V) (k : K) (v : V)
    (h : CacheInv c) (hk : k ∉ keys c.storage)
    (hfull : c.storage.length = c.capacity) :
    ∃ z, c.usage_order.getLast? = some z ∧ z ≠ k ∧
      (c.set k v).storage.length = c.capacity ∧
      hmGet z (c.set k v).storage = none ∧
      hmGet k (c.set k v).storage = some v ∧
      (∀ x, x ≠ z → x ≠ k → hmGet x (c.set k v).storage = hmGet x c.storage) ∧
      (∀ x, x ∈ keys (c.set k v).storage ↔
        (x = k ∨ (x ∈ keys c.storage ∧ x ≠ z))) := by
  obtain ⟨us, z, husz, hzs, hzk, hzus, hksu⟩ := evict_setup h hk hfull
  have hnds := h.1
  have hgt : (hmInsert k v c.storage).length > c.capacity := by
    rw [length_hmInsert_not_mem hk]
    omega
  rw [set_eq_evict c k v hgt hksu husz]
  refine ⟨z, ?_, hzk, ?_, ?_, ?_, ?_, ?_⟩
  · rw [husz]
    exact List.getLast?_concat _
  · show (hmRemove z (hmInsert k v c.storage)).length = c.capacity
    have hzi : z ∈ keys (hmInsert k v c.storage) :=
      mem_keys_hmInsert.mpr (Or.inr ⟨hzs, hzk⟩)
    have := length_hmRemove_mem (nodup_keys_hmInsert hnds) hzi
    rw [length_hmInsert_not_mem hk] at this
    omega
  · exact hmGet_hmRemove_self z _
  · show hmGet k (hmRemove z (hmInsert k v c.storage)) = some v
    rw [hmGet_hmRemove_ne (Ne.symm hzk), hmGet_hmInsert_self]
  · intro x hxz hxk
    show hmGet x (hmRemove z (hmInsert k v c.storage)) = hmGet x c.storage
    rw [hmGet_hmRemove_ne hxz, hmGet_hmInsert_ne hxk]
  · intro x
    show x ∈ keys (hmRemove z (hmInsert k v c.storage)) ↔ _
    rw [mem_keys_hmRemove, mem_keys_hmInsert]
    constructor
    · rintro ⟨rfl | ⟨hxs, hxk⟩, hxz⟩
      · exact Or.inl rfl
      · exact Or.inr ⟨hxs, hxz⟩
    · rintro (rfl | ⟨hxs, hxz⟩)
      · exact ⟨Or.inl rfl, Ne.symm hzk⟩
      · exact ⟨Or.inr ⟨hxs, fun e => hk (e ▸ hxs)⟩, hxz⟩

/-- C2: starting from `new(capacity)` (which only succeeds for a positive
capacity), no sequence of public `set` and `get` operations ever makes the
store hold more than `capacity` entries. -/
theorem claim2_capacity_never_exceeded (cap : Nat) (c : LRUCache K V)
    (ops : List (Op K V)) (h : LRUCache.new cap = some c) :
    (runOps c ops).storage.length ≤ cap := by
  have hInv := cacheInv_runOps c ops (cacheInv_new h)
  have hcap := capacity_runOps c ops
  have hc : c.capacity = cap := by
    unfold LRUCache.new at h
    by_cases hc0 : cap > 0
    · rw [if_pos hc0] at h
      cases h
      rfl
    · rw [if_neg hc0] at h
      cases h
  rw [← hc, ← hcap]
  exact hInv.2.2.2.2.1

/-- C3: after any sequence of public operations starting from `new`, the
recency sequence has no duplicates and its members are exactly the keys of the
store. -/
theorem claim3_recency_store_consistent (cap : Nat) (c : LRUCache K V)
    (ops : List (Op K V)) (h : LRUCache.new cap = some c) :
    (runOps c ops).usage_order.Nodup ∧
    (∀ x, x ∈ (runOps c ops).usage_order ↔ x ∈ keys (runOps c ops).storage) := by
  have hInv := cacheInv_runOps c ops (cacheInv_new h)
  exact ⟨hInv.2.1,
    fun x => ⟨fun hx => hInv.2.2.1 x hx, fun hx => hInv.2.2.2.1 x hx⟩⟩

/-- C4: `get` on a present key returns the stored value and moves the key to
the front of the recency sequence while leaving the store and capacity alone;
`get` on an absent key returns `none` and leaves the whole state unchanged. -/
theorem claim4_get_present_absent (c : LRUCache K V) (k : K) :
    (k ∈ keys c.storage →
      (∃ v, hmGet k c.storage = some v ∧ (c.get k).1 = some v) ∧
      (c.get k).2.usage_order =
        k :: c.usage_order.filter (fun x => decide (x ≠ k)) ∧
      (c.get k).2.storage = c.storage ∧
      (c.get k).2.capacity = c.capacity) ∧
    (k ∉ keys c.storage → (c.get k).1 = none ∧ (c.get k).2 = c) := by
  constructor
  · intro h
    rw [get_of_contains (hmContains_iff.mpr h)]
    obtain ⟨v, hv⟩ := hmGet_isSome_of_mem h
    exact ⟨⟨v, hv, hv⟩, rfl, rfl, rfl⟩
  · intro h
    rw [get_of_not_contains (fun hc => h (hmContains_iff.mp hc))]
    exact ⟨rfl, rfl⟩

/-- C6: `new(capacity)` aborts (modelled as `none`) exactly for
`capacity = 0`; for a positive capacity it yields a cache with that capacity
and empty store and recency sequence.  All other operations (`set`, `get`)
are total functions of the state in this embedding, so no other operation can
fail. -/
theorem claim6_new_aborts_iff_zero (cap : Nat) :
    ((LRUCache.new cap : Option (LRUCache K V)) = none ↔ cap = 0) ∧
    (0 < cap → (LRUCache.new cap : Option (LRUCache K V)) =
      some ⟨cap, [], []⟩) := by
  constructor
  · constructor
    · intro h
      by_contra hne
      unfold LRUCache.new at h
      rw [if_pos (Nat.pos_of_ne_zero hne)] at h
      cases h
    · rintro rfl
      rfl
  · intro h
    unfold LRUCache.new
    rw [if_pos h]

/-- C7: overwriting the same key twice with the same value under the invariant
keeps the stored value at exactly the value written, and each of the two
calls leaves the key at the front of the recency sequence. -/
theorem claim7_idempotent_overwrite (c : LRUCache K V) (k : K) (v : V)
    (h : CacheInv c) :
    hmGet k ((c.set k v).set k v).storage = hmGet k (c.set k v).storage ∧
    hmGet k (c.set k v).storage = some v ∧
    (c.set k v).usage_order.head? = some k ∧
    ((c.set k v).set k v).usage_order.head? = some k := by
  have h1 := set_get_value c k v h
  have h2 := set_get_value (c.set k v) k v (cacheInv_set c k v h)
  exact ⟨by rw [h2.1, h1.1], h1.1, h1.2, h2.2⟩

/-- C8: `get` on a present key changes only the recency sequence: the store
(all keys with their values) and the capacity are untouched. -/
theorem claim8_get_frame (c : LRUCache K V) (k : K) (h : k ∈ keys c.storage) :
    (c.get k).2.storage = c.storage ∧ (c.get k).2.capacity = c.capacity := by
  rw [get_of_contains (hmContains_iff.mpr h)]
  exact ⟨rfl, rfl⟩

/-- Eviction-branch unfolding of `set` that does not assume the key was
absent from the usage order: only the decomposition of the promoted usage
order into a front part and a last element is required. -/
theorem set_eq_evict_general (c : LRUCache K V) (k : K) (v : V) {us : List K}
    {z : K}
    (hgt : (hmInsert k v c.storage).length > c.capacity)
    (hus : k :: c.usage_order.filter (fun x => decide (x ≠ k)) = us ++ [z]) :
    c.set k v = ⟨c.capacity, hmRemove z (hmInsert k v c.storage), us⟩ := by
  simp only [LRUCache.set, LRUCache.update_usage]
  rw [if_pos hgt, hus, List.getLast?_concat, List.dropLast_concat]

/-- C10: a key just written by `set` is never the entry evicted by that same
call: an immediate `get` of it returns the written value.  The hypotheses are
exactly what the data model guarantees for any cache of the program: every
stored key appears in the recency sequence, and the capacity is positive. -/
theorem claim10_set_then_get (c : LRUCache K V) (k : K) (v : V)
    (hsu : ∀ x ∈ keys c.storage, x ∈ c.usage_order) (hpos : 0 < c.capacity) :
    ((c.set k v).get k).1 = some v := by
  have hval : hmGet k (c.set k v).storage = some v := by
    by_cases hle : (hmInsert k v c.storage).length ≤ c.capacity
    · rw [set_eq_no_evict c k v hle]
      exact hmGet_hmInsert_self k v c.storage
    · have hgt : (hmInsert k v c.storage).length > c.capacity := by omega
      have hflt : c.usage_order.filter (fun x => decide (x ≠ k)) ≠ [] := by
        have hlen2 : 2 ≤ (hmInsert k v c.storage).length := by omega
        have hrne : hmRemove k c.storage ≠ [] := by
          intro he
          rw [hmInsert, he] at hlen2
          simp at hlen2
        cases hr : hmRemove k c.storage with
        | nil => exact absurd hr hrne
        | cons p t =>
          have hp : p ∈ hmRemove k c.storage := by rw [hr]; exact List.mem_cons_self _ _
          have hpne : p.1 ≠ k := by
            have := List.mem_filter.mp hp
            simpa using this.2
          have hpstore : p.1 ∈ keys c.storage := by
            have := List.mem_filter.mp hp
            exact List.mem_map_of_mem Prod.fst this.1
          have hpu : p.1 ∈ c.usage_order := hsu p.1 hpstore
          intro he
          have : p.1 ∈ c.usage_order.filter (fun x => decide (x ≠ k)) :=
            List.mem_filter.mpr ⟨hpu, by simpa using hpne⟩
          rw [he] at this
          cases this
      obtain ⟨f0, z, hf⟩ : ∃ f0 z,
          c.usage_order.filter (fun x => decide (x ≠ k)) = f0 ++ [z] := by
        rcases List.eq_nil_or_concat
            (c.usage_order.filter (fun x => decide (x ≠ k))) with he | ⟨f0, z, he⟩
        · exact absurd he hflt
        · exact ⟨f0, z, by simpa [List.concat_eq_append] using he⟩
      have hzk : z ≠ k := by
        have hzmem : z ∈ c.usage_order.filter (fun x => decide (x ≠ k)) := by
          rw [hf]
          simp
        simpa using (List.mem_filter.mp hzmem).2
      rw [set_eq_evict_general c k v hgt
        (show _ = (k :: f0) ++ [z] by rw [hf]; simp)]
      show hmGet k (hmRemove z (hmInsert k v c.storage)) = some v
      rw [hmGet_hmRemove_ne (Ne.symm hzk), hmGet_hmInsert_self]
  have hk : k ∈ keys (c.set k v).storage := mem_keys_of_hmGet_eq_some hval
  rw [get_of_contains (hmContains_iff.mpr hk)]
  exact hval

theorem mem_keys_runSets_of_mem (c : Cache K V) (ops : List (K × V)) {k : K}
    (h : k ∈ keys c.storage) : k ∈ keys (c.runSets ops).storage := by
  induction ops generalizing c with
  | nil => exact h
  | cons p t ih =>
    simp only [Cache.runSets, List.foldl_cons] at ih ⊢
    exact ih _ (mem_keys_hmInsert_of_mem h)

/-- C9: the unbounded `Cache` inserts or overwrites unconditionally, `get`
returns the currently stored value (or `none` for a never-set key) and is a
pure function of the state (it takes the receiver by shared reference in the
source), and no entry is ever evicted: every key ever set stays present no
matter how many `set` calls are performed. -/
theorem claim9_unbounded_cache (c : Cache K V) (k : K) (v : V) :
    ((c.set k v).get k = some v) ∧
    (∀ x, x ≠ k → (c.set k v).get x = c.get x) ∧
    (k ∉ keys c.storage → c.get k = none) ∧
    (∀ ops : List (K × V), k ∈ keys (((c.set k v).runSets ops)).storage) := by
  refine ⟨hmGet_hmInsert_self k v c.storage, ?_, ?_, ?_⟩
  · intro x hx
    exact hmGet_hmInsert_ne hx c.storage
  · intro h
    exact hmGet_eq_none_of_not_mem h
  · intro ops
    exact mem_keys_runSets_of_mem _ ops (mem_keys_hmInsert.mpr (Or.inl rfl))

/-! ### The fill lemma for C5 -/

/-- Running `set` on a list of fresh, pairwise distinct keys that still fits
within the remaining capacity prepends those keys (in reverse) to the usage
order, adds them all to the store, and preserves the invariant. -/
theorem run_fresh_sets (L : List (K × V)) :
    ∀ c : LRUCache K V, CacheInv c →
    (keys L).Nodup → (∀ x ∈ keys L, x ∉ keys c.storage) →
    c.storage.length + L.length ≤ c.capacity →
    (runOps c (L.map (fun p => Op.set p.1 p.2))).usage_order
        = (keys L).reverse ++ c.usage_order ∧
    (runOps c (L.map (fun p => Op.set p.1 p.2))).storage.length
        = c.storage.length + L.length ∧
    (runOps c (L.map (fun p => Op.set p.1 p.2))).capacity = c.capacity ∧
    CacheInv (runOps c (L.map (fun p => Op.set p.1 p.2))) ∧
    (∀ x, x ∈ keys (runOps c (L.map (fun p => Op.set p.1 p.2))).storage ↔
        x ∈ keys L ∨ x ∈ keys c.storage) := by
  induction L with
  | nil =>
    intro c hInv _ _ _
    exact ⟨rfl, rfl, rfl, hInv, fun x => by simp [runOps, keys]⟩
  | cons p t ih =>
    intro c hInv hnd hfresh hlen
    have hp1 : p.1 ∈ keys (p :: t) := by simp [keys]
    have hpfresh : p.1 ∉ keys c.storage := hfresh p.1 hp1
    have hpusage : p.1 ∉ c.usage_order := fun hmem => hpfresh (hInv.2.2.1 p.1 hmem)
    have hsetlen : (hmInsert p.1 p.2 c.storage).length = c.storage.length + 1 :=
      length_hmInsert_not_mem hpfresh
    have hLlen : (p :: t).length = t.length + 1 := rfl
    have hset : c.set p.1 p.2 = ⟨c.capacity, hmInsert p.1 p.2 c.storage,
        p.1 :: c.usage_order⟩ := by
      rw [set_eq_no_evict c p.1 p.2 (by omega),
        filter_ne_eq_self_of_not_mem hpusage]
    have hndt : (keys t).Nodup ∧ p.1 ∉ keys t := by
      have : (keys (p :: t)) = p.1 :: keys t := rfl
      rw [this] at hnd
      exact ⟨(List.nodup_cons.mp hnd).2, (List.nodup_cons.mp hnd).1⟩
    have hInv1 : CacheInv (c.set p.1 p.2) := cacheInv_set c p.1 p.2 hInv
    rw [hset] at hInv1
    have hfresh1 : ∀ x ∈ keys t, x ∉ keys (hmInsert p.1 p.2 c.storage) := by
      intro x hx hmem
      rcases mem_keys_hmInsert.mp hmem with rfl | ⟨hxs, _⟩
      · exact hndt.2 hx
      · exact hfresh x (by simp [keys] at hx ⊢; exact Or.inr hx) hxs
    have hstep : runOps c ((p :: t).map (fun q => Op.set q.1 q.2))
        = runOps ⟨c.capacity, hmInsert p.1 p.2 c.storage, p.1 :: c.usage_order⟩
            (t.map (fun q => Op.set q.1 q.2)) := by
      simp only [List.map_cons, runOps, List.foldl_cons]
      rw [show applyOp c (Op.set p.1 p.2) = c.set p.1 p.2 from rfl, hset]
    obtain ⟨hu, hl, hc, hi, hm⟩ := ih ⟨c.capacity, hmInsert p.1 p.2 c.storage,
        p.1 :: c.usage_order⟩ hInv1 hndt.1 hfresh1 (by simp only; omega)
    rw [hstep]
    refine ⟨?_, ?_, hc, hi, ?_⟩
    · rw [hu]
      show (keys t).reverse ++ (p.1 :: c.usage_order)
          = (p.1 :: keys t).reverse ++ c.usage_order
      simp
    · rw [hl]
      simp only
      omega
    · intro x
      rw [hm x]
      show x ∈ keys t ∨ x ∈ keys (hmInsert p.1 p.2 c.storage)
          ↔ x ∈ keys (p :: t) ∨ x ∈ keys c.storage
      rw [mem_keys_hmInsert]
      have hxpt : x ∈ keys (p :: t) ↔ x = p.1 ∨ x ∈ keys t := by simp [keys]
      rw [hxpt]
      by_cases hx : x = p.1 <;> simp [hx]

/-- C5: after a `get` on a present key `k`, inserting enough fresh distinct
keys to trigger exactly one eviction (that is, `capacity - size + 1` of them)
never evicts `k`, as long as some other stored key `u` was left untouched:
`k` is still present afterwards. -/
theorem claim5_promotion_on_read (c : LRUCache K V) (k u : K)
    (L : List (K × V)) (h : CacheInv c)
    (hk : k ∈ keys c.storage) (hu : u ∈ keys c.storage) (hne : u ≠ k)
    (hndL : (keys L).Nodup)
    (hfresh : ∀ x ∈ keys L, x ∉ keys c.storage)
    (hlen : c.storage.length + L.length = c.capacity + 1) :
    k ∈ keys (runOps (c.get k).2 (L.map (fun p => Op.set p.1 p.2))).storage := by
  have hcget : (c.get k).2 = ⟨c.capacity, c.storage,
      k :: c.usage_order.filter (fun x => decide (x ≠ k))⟩ := by
    rw [get_of_contains (hmContains_iff.mpr hk)]
  have hInv1 : CacheInv ((c.get k).2) := cacheInv_get c k h
  rw [hcget] at hInv1 ⊢
  have hu_rest : u ∈ c.usage_order.filter (fun x => decide (x ≠ k)) :=
    List.mem_filter.mpr ⟨h.2.2.2.1 u hu, by simpa using hne⟩
  have hLne : L ≠ [] := by
    intro he
    rw [he] at hlen
    simp at hlen
    have := h.2.2.2.2.1
    omega
  obtain ⟨t, q, rfl⟩ : ∃ t q, L = t ++ [q] := by
    rcases List.eq_nil_or_concat L with he | ⟨t, q, he⟩
    · exact absurd he hLne
    · exact ⟨t, q, by simpa [List.concat_eq_append] using he⟩
  have hkeysL : keys (t ++ [q]) = keys t ++ [q.1] := by simp [keys]
  rw [hkeysL] at hndL hfresh
  rcases List.nodup_append.mp hndL with ⟨hndt, _, hdisj⟩
  have hq1t : q.1 ∉ keys t := fun hmem => hdisj hmem (by simp)
  have hq1c : q.1 ∉ keys c.storage := hfresh q.1 (by simp)
  have hfresht : ∀ x ∈ keys t, x ∉ keys c.storage := fun x hx =>
    hfresh x (List.mem_append_left _ hx)
  have hlent : c.storage.length + t.length ≤ c.capacity := by
    have : (t ++ [q]).length = t.length + 1 := by simp
    omega
  obtain ⟨hu2, hl2, hc2, hi2, hm2⟩ :=
    run_fresh_sets t ⟨c.capacity, c.storage,
      k :: c.usage_order.filter (fun x => decide (x ≠ k))⟩ hInv1 hndt hfresht
      (by simpa using hlent)
  have hsplit : runOps (⟨c.capacity, c.storage,
        k :: c.usage_order.filter (fun x => decide (x ≠ k))⟩ : LRUCache K V)
      ((t ++ [q]).map (fun p => Op.set p.1 p.2))
      = (runOps ⟨c.capacity, c.storage,
          k :: c.usage_order.filter (fun x => decide (x ≠ k))⟩
          (t.map (fun p => Op.set p.1 p.2))).set q.1 q.2 := by
    simp only [List.map_append, List.map_cons, List.map_nil, runOps,
      List.foldl_append, List.foldl_cons, List.foldl_nil]
    rfl
  rw [hsplit]
  obtain ⟨r0, z, hrz⟩ : ∃ r0 z,
      c.usage_order.filter (fun x => decide (x ≠ k)) = r0 ++ [z] := by
    rcases List.eq_nil_or_concat
        (c.usage_order.filter (fun x => decide (x ≠ k))) with he | ⟨r0, z, he⟩
    · rw [he] at hu_rest
      cases hu_rest
    · exact ⟨r0, z, by simpa [List.concat_eq_append] using he⟩
  have hzk : z ≠ k := by
    have hzmem : z ∈ c.usage_order.filter (fun x => decide (x ≠ k)) := by
      rw [hrz]
      simp
    simpa using (List.mem_filter.mp hzmem).2
  have hkc2 : k ∈ keys (runOps ⟨c.capacity, c.storage,
      k :: c.usage_order.filter (fun x => decide (x ≠ k))⟩
      (t.map (fun p => Op.set p.1 p.2))).storage :=
    (hm2 k).mpr (Or.inr hk)
  have hq1c2 : q.1 ∉ keys (runOps ⟨c.capacity, c.storage,
      k :: c.usage_order.filter (fun x => decide (x ≠ k))⟩
      (t.map (fun p => Op.set p.1 p.2))).storage := by
    intro hmem
    rcases (hm2 q.1).mp hmem with h1 | h1
    · exact hq1t h1
    · exact hq1c h1
  have hq1u2 : q.1 ∉ (runOps ⟨c.capacity, c.storage,
      k :: c.usage_order.filter (fun x => decide (x ≠ k))⟩
      (t.map (fun p => Op.set p.1 p.2))).usage_order := fun hmem =>
    hq1c2 (hi2.2.2.1 q.1 hmem)
  have husz2 : (runOps ⟨c.capacity, c.storage,
      k :: c.usage_order.filter (fun x => decide (x ≠ k))⟩
      (t.map (fun p => Op.set p.1 p.2))).usage_order
      = ((keys t).reverse ++ (k :: r0)) ++ [z] := by
    rw [hu2]
    show (keys t).reverse ++ (k :: c.usage_order.filter (fun x => decide (x ≠ k)))
        = _
    rw [hrz]
    simp
  have hgt : (hmInsert q.1 q.2 (runOps ⟨c.capacity, c.storage,
      k :: c.usage_order.filter (fun x => decide (x ≠ k))⟩
      (t.map (fun p => Op.set p.1 p.2))).storage).length
      > (runOps ⟨c.capacity, c.storage,
        k :: c.usage_order.filter (fun x => decide (x ≠ k))⟩
        (t.map (fun p => Op.set p.1 p.2))).capacity := by
    rw [length_hmInsert_not_mem hq1c2, hl2, hc2]
    simp only
    have : (t ++ [q]).length = t.length + 1 := by simp
    omega
  rw [set_eq_evict _ q.1 q.2 hgt hq1u2 husz2]
  show k ∈ keys (hmRemove z (hmInsert q.1 q.2 _))
  refine mem_keys_hmRemove.mpr ⟨mem_keys_hmInsert.mpr (Or.inr ⟨hkc2, ?_⟩),
    fun e => hzk (e ▸ rfl)⟩
  exact fun e => hq1c (e ▸ hk)

/-! ### Concrete witnesses -/

/-- Witness for C1: a full one-slot cache holding key 0; setting fresh key 1
evicts key 0 (the back of the recency sequence) and stores 1. -/
theorem claim1_witness :
    hmGet 0 ((⟨1, [(0, 5)], [0]⟩ : LRUCache Nat Nat).set 1 7).storage = none ∧
    hmGet 1 ((⟨1, [(0, 5)], [0]⟩ : LRUCache Nat Nat).set 1 7).storage = some 7 ∧
    ((⟨1, [(0, 5)], [0]⟩ : LRUCache Nat Nat).set 1 7).storage.length = 1 := by
  obtain ⟨z, hz, _, hlen, hznone, hksome, _, _⟩ :=
    claim1_eviction_is_lru (⟨1, [(0, 5)], [0]⟩ : LRUCache Nat Nat) 1 7
      (by decide) (by decide) (by decide)
  have hz0 : z = 0 := by
    simp at hz
    omega
  subst hz0
  exact ⟨hznone, hksome, hlen⟩

/-- Witness for C2 on a capacity-2 cache and four operations. -/
theorem claim2_witness :
    (runOps (⟨2, [], []⟩ : LRUCache Nat Nat)
      [Op.set 1 10, Op.set 2 20, Op.set 3 30, Op.get 1]).storage.length ≤ 2 :=
  claim2_capacity_never_exceeded 2 ⟨2, [], []⟩
    [Op.set 1 10, Op.set 2 20, Op.set 3 30, Op.get 1] (by decide)

/-- Witness for C3 on a capacity-2 cache and four operations. -/
theorem claim3_witness :
    (runOps (⟨2, [], []⟩ : LRUCache Nat Nat)
      [Op.set 1 10, Op.set 2 20, Op.set 3 30, Op.get 2]).usage_order.Nodup ∧
    (2 ∈ (runOps (⟨2, [], []⟩ : LRUCache Nat Nat)
        [Op.set 1 10, Op.set 2 20, Op.set 3 30, Op.get 2]).usage_order ↔
      2 ∈ keys (runOps (⟨2, [], []⟩ : LRUCache Nat Nat)
        [Op.set 1 10, Op.set 2 20, Op.set 3 30, Op.get 2]).storage) := by
  have h := claim3_recency_store_consistent 2 ⟨2, [], []⟩
    [Op.set 1 10, Op.set 2 20, Op.set 3 30, Op.get 2] (by decide)
  exact ⟨h.1, h.2 2⟩

/-- Witness for C4: a `get` of present key 1 promotes it and leaves the store
alone; a `get` of absent key 3 returns `none` and changes nothing. -/
theorem claim4_witness :
    ((⟨2, [(1, 10), (2, 20)], [2, 1]⟩ : LRUCache Nat Nat).get 1).2.usage_order
      = 1 :: ([2, 1].filter (fun x => decide (x ≠ 1))) ∧
    ((⟨2, [(1, 10), (2, 20)], [2, 1]⟩ : LRUCache Nat Nat).get 1).2.storage
      = [(1, 10), (2, 20)] ∧
    ((⟨2, [(1, 10), (2, 20)], [2, 1]⟩ : LRUCache Nat Nat).get 3).1 = none ∧
    ((⟨2, [(1, 10), (2, 20)], [2, 1]⟩ : LRUCache Nat Nat).get 3).2
      = ⟨2, [(1, 10), (2, 20)], [2, 1]⟩ := by
  have h1 := (claim4_get_present_absent
    (⟨2, [(1, 10), (2, 20)], [2, 1]⟩ : LRUCache Nat Nat) 1).1 (by decide)
  have h2 := (claim4_get_present_absent
    (⟨2, [(1, 10), (2, 20)], [2, 1]⟩ : LRUCache Nat Nat) 3).2 (by decide)
  exact ⟨h1.2.1, h1.2.2.1, h2.1, h2.2⟩

/-- Witness for C5: after reading key 1 in a full capacity-2 cache, inserting
the single fresh key 3 evicts the untouched key 2 rather than key 1. -/
theorem claim5_witness :
    1 ∈ keys (runOps ((⟨2, [(1, 10), (2, 20)], [2, 1]⟩ : LRUCache Nat Nat).get 1).2
      ([((3 : Nat), (30 : Nat))].map (fun p => Op.set p.1 p.2))).storage :=
  claim5_promotion_on_read (⟨2, [(1, 10), (2, 20)], [2, 1]⟩ : LRUCache Nat Nat)
    1 2 [(3, 30)] (by decide) (by decide) (by decide) (by decide) (by decide)
    (by decide) (by decide)

/-- Witness for C6 at capacities 0 and 2. -/
theorem claim6_witness :
    (LRUCache.new 0 : Option (LRUCache Nat Nat)) = none ∧
    (LRUCache.new 2 : Option (LRUCache Nat Nat)) = some ⟨2, [], []⟩ :=
  ⟨(claim6_new_aborts_iff_zero 0).1.mpr rfl,
   (claim6_new_aborts_iff_zero 2).2 (by decide)⟩

/-- Witness for C7 with a double overwrite of fresh key 1 in a full one-slot
cache. -/
theorem claim7_witness :
    hmGet 1 (((⟨1, [(0, 5)], [0]⟩ : LRUCache Nat Nat).set 1 7).set 1 7).storage
      = hmGet 1 ((⟨1, [(0, 5)], [0]⟩ : LRUCache Nat Nat).set 1 7).storage ∧
    hmGet 1 ((⟨1, [(0, 5)], [0]⟩ : LRUCache Nat Nat).set 1 7).storage = some 7 ∧
    ((⟨1, [(0, 5)], [0]⟩ : LRUCache Nat Nat).set 1 7).usage_order.head? = some 1 ∧
    (((⟨1, [(0, 5)], [0]⟩ : LRUCache Nat Nat).set 1 7).set 1 7).usage_order.head?
      = some 1 :=
  claim7_idempotent_overwrite (⟨1, [(0, 5)], [0]⟩ : LRUCache Nat Nat) 1 7
    (by decide)

/-- Witness for C8 reading present key 1. -/
theorem claim8_witness :
    ((⟨2, [(1, 10), (2, 20)], [2, 1]⟩ : LRUCache Nat Nat).get 1).2.storage
      = [(1, 10), (2, 20)] ∧
    ((⟨2, [(1, 10), (2, 20)], [2, 1]⟩ : LRUCache Nat Nat).get 1).2.capacity = 2 :=
  claim8_get_frame (⟨2, [(1, 10), (2, 20)], [2, 1]⟩ : LRUCache Nat Nat) 1
    (by decide)

/-- Witness for C9 on concrete unbounded caches. -/
theorem claim9_witness :
    ((Cache.mk [] : Cache Nat Nat).set 1 2).get 1 = some 2 ∧
    ((Cache.mk [((3 : Nat), (4 : Nat))]).set 1 2).get 3
      = (Cache.mk [((3 : Nat), (4 : Nat))]).get 3 ∧
    (Cache.mk [] : Cache Nat Nat).get 5 = none ∧
    1 ∈ keys (((Cache.mk [] : Cache Nat Nat).set 1 2).runSets
      [(7, 8), (9, 10)]).storage := by
  have h1 := claim9_unbounded_cache (Cache.mk [] : Cache Nat Nat) 1 2
  have h2 := claim9_unbounded_cache (Cache.mk [((3 : Nat), (4 : Nat))]) 1 2
  have h3 := claim9_unbounded_cache (Cache.mk [] : Cache Nat Nat) 5 0
  exact ⟨h1.1, h2.2.1 3 (by decide), h3.2.2.1 (by decide),
    h1.2.2.2 [(7, 8), (9, 10)]⟩

/-- Witness for C10: set-then-get of key 1 on a full one-slot cache returns
the written value even though the set evicted key 0. -/
theorem claim10_witness :
    (((⟨1, [(0, 5)], [0]⟩ : LRUCache Nat Nat).set 1 7).get 1).1 = some 7 :=
  claim10_set_then_get (⟨1, [(0, 5)], [0]⟩ : LRUCache Nat Nat) 1 7
    (by decide) (by decide)
